import Mathlib

/-!
Shallow embedding of `src/tools/migrate/runner.go` (package `migrate`).

Modelling conventions, stated once:

* The `_migrations` ledger table is a `List LedgerRow`, one row per insert,
  in insertion order; a row holds the `file` primary key and the `applied`
  timestamp column.
* The rest of the database (the tables the migration operations touch) is
  abstracted as a single `Nat`-valued application state; a migration unit
  carries `up`/`down` operations `Nat → Except String Nat` that may fail with
  a `String` cause (the Go `error` returned by the operation).
* `dbx.DB.Transactional` runs the closure on the current state; on error the
  transaction is rolled back, so the caller keeps the original state and
  receives the error; on success the mutated state is committed.  `Up`/`Down`
  therefore return the pair (returned value, database state after the call).
* The existence query inside `isMigrationApplied` can fail at the SQL layer
  (the `err == nil && exists` guard in the source); the oracle
  `readFails : String → Bool` says whether that query errors for a given file.
* `tx.Insert` on the ledger enforces the `file ... PRIMARY KEY` constraint:
  inserting a key that already has a row fails with the constraint violation,
  which `Up` wraps as a save error; `tx.Delete` always succeeds (deleting
  absent rows is not an error); `time.Now().Unix()` is the parameter `now`,
  constant during one call.
* `cast.ToInt` (external library) is the parameter `castToInt` of the `Run`
  argument processing; `CREATE TABLE` DDL failure (e.g. missing privileges)
  is the oracle `ddlFails` of `createMigrationsTable`.
-/

namespace Migrate

/-- One row of the `_migrations` table:
`file VARCHAR(255) PRIMARY KEY NOT NULL, applied INTEGER NOT NULL`. -/
structure LedgerRow where
  file : String
  applied : Int
deriving DecidableEq

/-- The `_migrations` table contents, in insertion order. -/
abbrev Ledger := List LedgerRow

/-- A migration unit: its `file` identifier and its forward/backward
operations acting on the abstract application state. -/
structure Migration where
  file : String
  up : Nat → Except String Nat
  down : Nat → Except String Nat

/-- Database state visible inside one transaction: the ledger table plus the
abstract application state the unit operations act on. -/
structure TxState where
  ledger : Ledger
  app : Nat
deriving DecidableEq

/-- Errors surfaced by `Up`/`Down`: `fmt.Errorf("Failed to apply migration %s: %w", m.file, err)`,
`fmt.Errorf("Failed to save applied migration info for %s: %w", m.file, err)`
and `fmt.Errorf("Failed to revert migration %s: %w", m.file, err)` — each
wraps the failing unit identifier and the underlying cause. -/
inductive RunError where
  | applyFailed (file : String) (cause : String)
  | saveApplyFailed (file : String) (cause : String)
  | revertFailed (file : String) (cause : String)
deriving DecidableEq

/-- The Runner; the `db` handle and constant `tableName` of the Go struct are
abstracted away (the ledger table is the `TxState.ledger` passed around). -/
structure Runner where
  migrationsList : List Migration

/-- Source `migrationsTable` constant. -/
def migrationsTable : String := "_migrations"

/-- Source `Runner.isMigrationApplied`: SELECT count(*) WHERE file = file,
scanned into a bool; returns `err == nil && exists`.  `readFails file = true`
models the query returning an error for that file. -/
def Runner.isMigrationApplied (readFails : String → Bool) (ledger : Ledger)
    (file : String) : Bool :=
  !(readFails file) && ledger.any (fun row => row.file == file)

/-- Source `Runner.saveAppliedMigration`: INSERT a row with the file key and
the `applied` timestamp `time.Now().Unix()` (the parameter `now`).  The table
declares `file VARCHAR(255) PRIMARY KEY`, so the INSERT errors when a row
with this key already exists. -/
def Runner.saveAppliedMigration (now : Int) (ledger : Ledger) (file : String) :
    Except String Ledger :=
  if ledger.any (fun row => row.file == file) then
    Except.error "UNIQUE constraint failed: _migrations.file"
  else Except.ok (ledger ++ [{ file := file, applied := now }])

/-- Source `Runner.saveRevertedMigration`: DELETE all rows with this file key. -/
def Runner.saveRevertedMigration (ledger : Ledger) (file : String) : Ledger :=
  ledger.filter (fun row => !(row.file == file))

/-- Loop body of `Runner.Up`: iterate the migrations list in forward order;
skip applied units; run `m.up`, record the applied row, append the file to the
result.  The first failing unit operation or failing ledger insert aborts with
the corresponding wrapping error. -/
def Runner.upLoop (readFails : String → Bool) (now : Int) :
    List Migration → TxState → List String →
      Except RunError (TxState × List String)
  | [], st, applied => Except.ok (st, applied)
  | m :: rest, st, applied =>
    if Runner.isMigrationApplied readFails st.ledger m.file then
      Runner.upLoop readFails now rest st applied
    else
      match m.up st.app with
      | Except.error e => Except.error (RunError.applyFailed m.file e)
      | Except.ok a =>
        match Runner.saveAppliedMigration now st.ledger m.file with
        | Except.error e => Except.error (RunError.saveApplyFailed m.file e)
        | Except.ok ledger2 =>
          Runner.upLoop readFails now rest { ledger := ledger2, app := a }
            (applied ++ [m.file])

/-- Source `Runner.Up`: run the loop inside one transaction; on error the
transaction is rolled back (caller keeps `db`) and the error is returned; on
success the final state is committed and the applied list returned. -/
def Runner.Up (r : Runner) (readFails : String → Bool) (now : Int)
    (db : TxState) : Except RunError (List String) × TxState :=
  match Runner.upLoop readFails now r.migrationsList db [] with
  | Except.error e => (Except.error e, db)
  | Except.ok (st, applied) => (Except.ok applied, st)

/-- Loop body of `Runner.Down`: iterate in reverse list order (the Go loop
`for i := len-1; i >= 0; i--` receives here the reversed list); skip unapplied
units; break once `toRevertCount - totalReverted <= 0`; otherwise run `m.down`,
delete the ledger row, append the file.  `totalReverted` starts at 0 and is
never modified anywhere in the source loop; the parameter is threaded
unchanged to mirror that. -/
def Runner.downLoop (readFails : String → Bool)
    (toRevertCount totalReverted : Int) :
    List Migration → TxState → List String →
      Except RunError (TxState × List String)
  | [], st, applied => Except.ok (st, applied)
  | m :: rest, st, applied =>
    if !(Runner.isMigrationApplied readFails st.ledger m.file) then
      Runner.downLoop readFails toRevertCount totalReverted rest st applied
    else if toRevertCount - totalReverted ≤ 0 then
      Except.ok (st, applied)
    else
      match m.down st.app with
      | Except.error e => Except.error (RunError.revertFailed m.file e)
      | Except.ok a =>
        Runner.downLoop readFails toRevertCount totalReverted rest
          { ledger := Runner.saveRevertedMigration st.ledger m.file, app := a }
          (applied ++ [m.file])

/-- Source `Runner.Down`: same transactional wrapper as `Up`, with the loop
over the reversed migrations list and `totalReverted := 0` at entry. -/
def Runner.Down (r : Runner) (readFails : String → Bool) (toRevertCount : Int)
    (db : TxState) : Except RunError (List String) × TxState :=
  match Runner.downLoop readFails toRevertCount 0 r.migrationsList.reverse db [] with
  | Except.error e => (Except.error e, db)
  | Except.ok (st, applied) => (Except.ok applied, st)

/-- Source `Runner.createMigrationsTable`:
`CREATE TABLE IF NOT EXISTS _migrations (...)` against the store, modelled on
the list of existing table names; `ddlFails` models the underlying DDL
execution erroring (connectivity, privileges). -/
def Runner.createMigrationsTable (ddlFails : Bool) (tables : List String) :
    Except String (List String) :=
  if ddlFails then Except.error "StoreError"
  else if tables.contains migrationsTable then Except.ok tables
  else Except.ok (tables ++ [migrationsTable])

/-- Source `NewRunner`: build the Runner, run the table bootstrap once, fail
fast (no Runner) if it errors; otherwise return the Runner and the resulting
store tables. -/
def NewRunner (ddlFails : Bool) (tables : List String)
    (migrationsList : List Migration) :
    Except String (Runner × List String) :=
  match Runner.createMigrationsTable ddlFails tables with
  | Except.error e => Except.error e
  | Except.ok tables2 => Except.ok ({ migrationsList := migrationsList }, tables2)

/-- Command selection at the top of `Runner.Run`: `cmd := "up"`, overridden by
`args[0]` when present. -/
def Runner.runCmd (args : List String) : String :=
  match args with
  | [] => "up"
  | a :: _ => a

/-- Count computation of the `down` branch of `Runner.Run`:
`toRevertCount := 1`; when a second argument is present it is parsed with
`cast.ToInt` (the parameter `castToInt`); a negative parse is replaced by
`len(r.migrationsList.Items())`. -/
def Runner.runDownToRevertCount (r : Runner) (castToInt : String → Int)
    (args : List String) : Int :=
  match args with
  | _ :: second :: _ =>
    let v := castToInt second
    if v < 0 then (r.migrationsList.length : Int) else v
  | _ => 1

/-- The units of `ms` recorded as applied in ledger `L`, in list order. -/
def appliedItems (ms : List Migration) (L : Ledger) : List Migration :=
  ms.filter (fun m => L.any (fun row => row.file == m.file))

/-- All `up` operations of the listed units succeed on every state. -/
def UpsSucceed (ms : List Migration) : Prop :=
  ∀ m ∈ ms, ∀ s, ∃ t, m.up s = Except.ok t

/-- All `down` operations of the listed units succeed on every state. -/
def DownsSucceed (ms : List Migration) : Prop :=
  ∀ m ∈ ms, ∀ s, ∃ t, m.down s = Except.ok t

/-- The units of `ms` not recorded as applied in ledger `L`, in list order. -/
def pendingItems (ms : List Migration) (L : Ledger) : List Migration :=
  ms.filter (fun m => !(L.any (fun row => row.file == m.file)))

/-- Identity operation, always succeeding. -/
def okOp : Nat → Except String Nat := fun s => Except.ok s

/-- A unit with succeeding operations. -/
def mkMig (f : String) : Migration := ⟨f, okOp, okOp⟩

/-- A unit whose up operation always fails with cause "boom". -/
def failMig : Migration := ⟨"b", fun _ => Except.error "boom", okOp⟩

/-- Five registered units. -/
def runner5 : Runner := ⟨[mkMig "m1", mkMig "m2", mkMig "m3", mkMig "m4", mkMig "m5"]⟩

/-- Ledger with all five units applied. -/
def ledger5 : Ledger := [⟨"m1", 0⟩, ⟨"m2", 0⟩, ⟨"m3", 0⟩, ⟨"m4", 0⟩, ⟨"m5", 0⟩]

/-- One registered unit. -/
def runnerA : Runner := ⟨[mkMig "a"]⟩

/-- Three registered units. -/
def runner3 : Runner := ⟨[mkMig "a", mkMig "b", mkMig "c"]⟩

/-- Two registered units sharing the identifier "a". -/
def runnerDup : Runner := ⟨[mkMig "a", mkMig "a"]⟩

/-- A failing existence query makes the unit look unapplied. -/
theorem isMigrationApplied_of_readFails (readFails : String → Bool) (L : Ledger)
    (f : String) (h : readFails f = true) :
    Runner.isMigrationApplied readFails L f = false := by
  simp [Runner.isMigrationApplied, h]

/-- With a healthy store the applied check is row existence. -/
theorem isMigrationApplied_healthy (L : Ledger) (f : String) :
    Runner.isMigrationApplied (fun _ => false) L f
      = L.any (fun row => row.file == f) := by
  simp [Runner.isMigrationApplied]

/-- Row existence as membership of the file in the ledger key column. -/
theorem any_file_eq_mem_map (L : Ledger) (f : String) :
    (L.any (fun row => row.file == f) = true) ↔
      f ∈ L.map (fun row => row.file) := by
  simp [List.any_eq_true, List.mem_map]

/-- The ledger insert succeeds exactly when no row with the key exists. -/
theorem saveAppliedMigration_ok (now : Int) (L : Ledger) (f : String)
    (h : L.any (fun row => row.file == f) = false) :
    Runner.saveAppliedMigration now L f =
      Except.ok (L ++ [{ file := f, applied := now }]) := by
  simp [Runner.saveAppliedMigration, h]

/-- Once the break guard `toRevertCount - totalReverted <= 0` holds, the down
loop only skips and returns the state and accumulator unchanged. -/
theorem downLoop_stop (readFails : String → Bool) (n tot : Int)
    (h : n - tot ≤ 0) :
    ∀ (ms : List Migration) (st : TxState) (acc : List String),
      Runner.downLoop readFails n tot ms st acc = Except.ok (st, acc) := by
  intro ms
  induction ms with
  | nil => intro st acc; rfl
  | cons m rest ih =>
    intro st acc
    cases hap : Runner.isMigrationApplied readFails st.ledger m.file with
    | false => simp [Runner.downLoop, hap, ih]
    | true => simp [Runner.downLoop, hap, h]

/-- When every down operation succeeds, the down loop never errors. -/
theorem downLoop_ok (readFails : String → Bool) (n tot : Int) :
    ∀ (ms : List Migration), DownsSucceed ms →
    ∀ (st : TxState) (acc : List String),
      ∃ st2 l, Runner.downLoop readFails n tot ms st acc = Except.ok (st2, l) := by
  intro ms
  induction ms with
  | nil => intro _ st acc; exact ⟨st, acc, rfl⟩
  | cons m rest ih =>
    intro hsuc st acc
    have hrest : DownsSucceed rest := fun m' hm' => hsuc m' (List.mem_cons_of_mem _ hm')
    cases hap : Runner.isMigrationApplied readFails st.ledger m.file with
    | false =>
      obtain ⟨st2, l, hl⟩ := ih hrest st acc
      exact ⟨st2, l, by simp [Runner.downLoop, hap, hl]⟩
    | true =>
      by_cases hstop : n - tot ≤ 0
      · exact ⟨st, acc, by simp [Runner.downLoop, hap, hstop]⟩
      · obtain ⟨t, ht⟩ := hsuc m (List.mem_cons_self _ _) st.app
        obtain ⟨st2, l, hl⟩ := ih hrest
          ⟨Runner.saveRevertedMigration st.ledger m.file, t⟩ (acc ++ [m.file])
        exact ⟨st2, l, by simp [Runner.downLoop, hap, hstop, ht, hl]⟩

/-- When every up operation succeeds, the file keys are unique, and read
failures hit only units without a ledger row, the up loop never errors: every
insert it performs is for a key with no existing row, so the primary-key
constraint is never violated. -/
theorem upLoop_ok (readFails : String → Bool) (now : Int) :
    ∀ (ms : List Migration), UpsSucceed ms → (ms.map (fun m => m.file)).Nodup →
    ∀ (st : TxState) (acc : List String),
      (∀ m ∈ ms, readFails m.file = true →
        st.ledger.any (fun row => row.file == m.file) = false) →
      ∃ st2 l, Runner.upLoop readFails now ms st acc = Except.ok (st2, l) := by
  intro ms
  induction ms with
  | nil => intro _ _ st acc _; exact ⟨st, acc, rfl⟩
  | cons m rest ih =>
    intro hsuc hnodup st acc hmask
    rw [List.map_cons] at hnodup
    have hnodup' : (rest.map (fun m => m.file)).Nodup := hnodup.of_cons
    have hne : m.file ∉ rest.map (fun m => m.file) := (List.nodup_cons.mp hnodup).1
    have hrest : UpsSucceed rest := fun m' hm' => hsuc m' (List.mem_cons_of_mem _ hm')
    cases hap : Runner.isMigrationApplied readFails st.ledger m.file with
    | false =>
      have hany : st.ledger.any (fun row => row.file == m.file) = false := by
        cases hrf : readFails m.file with
        | true => exact hmask m (List.mem_cons_self _ _) hrf
        | false =>
          rw [Runner.isMigrationApplied, hrf] at hap
          simpa using hap
      obtain ⟨t, ht⟩ := hsuc m (List.mem_cons_self _ _) st.app
      have hmask' : ∀ m' ∈ rest, readFails m'.file = true →
          (st.ledger ++ [(⟨m.file, now⟩ : LedgerRow)]).any
            (fun row => row.file == m'.file) = false := by
        intro m' hm' hrf
        have h1 := hmask m' (List.mem_cons_of_mem _ hm') hrf
        have h2 : (m.file == m'.file) = false := by
          rw [beq_eq_false_iff_ne]
          intro hcontra
          exact hne (hcontra ▸ List.mem_map_of_mem _ hm')
        simp [List.any_append, h1, h2]
      obtain ⟨st2, l, hl⟩ := ih hrest hnodup'
        ⟨st.ledger ++ [(⟨m.file, now⟩ : LedgerRow)], t⟩ (acc ++ [m.file]) hmask'
      exact ⟨st2, l, by
        simp [Runner.upLoop, hap, ht, saveAppliedMigration_ok now st.ledger m.file hany, hl]⟩
    | true =>
      obtain ⟨st2, l, hl⟩ := ih hrest hnodup' st acc
        (fun m' hm' hrf => hmask m' (List.mem_cons_of_mem _ hm') hrf)
      exact ⟨st2, l, by simp [Runner.upLoop, hap, hl]⟩

/-- The up loop skips a fully applied list and leaves everything unchanged. -/
theorem upLoop_skipAll (now : Int) :
    ∀ (ms : List Migration) (st : TxState) (acc : List String),
      (∀ m ∈ ms, st.ledger.any (fun row => row.file == m.file) = true) →
      Runner.upLoop (fun _ => false) now ms st acc = Except.ok (st, acc) := by
  intro ms
  induction ms with
  | nil => intro st acc _; rfl
  | cons m rest ih =>
    intro st acc h
    have hm : Runner.isMigrationApplied (fun _ => false) st.ledger m.file = true := by
      rw [isMigrationApplied_healthy]
      exact h m (List.mem_cons_self _ _)
    have hrest := ih st acc (fun m' hm' => h m' (List.mem_cons_of_mem _ hm'))
    simp [Runner.upLoop, hm, hrest]

/-- Membership of a file key in a reversed key list is unchanged. -/
theorem contains_reverse (l : List String) (a : String) :
    l.reverse.contains a = l.contains a := by
  simp [List.contains, List.elem_eq_mem]

/-- Deleting the rows of one file does not change existence of another file. -/
theorem any_file_filter_ne (L : Ledger) (x y : String) (h : y ≠ x) :
    (L.filter (fun row => !(row.file == x))).any (fun row => row.file == y)
      = L.any (fun row => row.file == y) := by
  induction L with
  | nil => rfl
  | cons r L ih =>
    by_cases hr : r.file = x
    · have hy : (r.file == y) = false := by
        rw [beq_eq_false_iff_ne, hr]
        exact fun hxy => h hxy.symm
      have hrx : (!(r.file == x)) = false := by simp [hr]
      simp only [List.filter_cons, hrx, Bool.false_eq_true, if_false, List.any_cons, hy,
        Bool.false_or]
      exact ih
    · have hrx : (!(r.file == x)) = true := by simp [hr]
      simp only [List.filter_cons, hrx, if_true, List.any_cons, ih]

/-- The up loop applies the whole list when no unit is recorded yet and every
up operation succeeds: the new rows are appended in forward list order and the
returned list is the file list in forward order. -/
theorem upLoop_fresh (now : Int) :
    ∀ (ms : List Migration), (ms.map (fun m => m.file)).Nodup → UpsSucceed ms →
    ∀ (st : TxState) (acc : List String),
      (∀ m ∈ ms, st.ledger.any (fun row => row.file == m.file) = false) →
      ∃ a2, Runner.upLoop (fun _ => false) now ms st acc =
        Except.ok (⟨st.ledger ++ ms.map (fun m => ⟨m.file, now⟩), a2⟩,
          acc ++ ms.map (fun m => m.file)) := by
  intro ms
  induction ms with
  | nil => intro _ _ st acc _; exact ⟨st.app, by simp [Runner.upLoop]⟩
  | cons m rest ih =>
    intro hnodup hsuc st acc hfresh
    have hm0 : st.ledger.any (fun row => row.file == m.file) = false :=
      hfresh m (List.mem_cons_self _ _)
    have hap : Runner.isMigrationApplied (fun _ => false) st.ledger m.file = false := by
      rw [isMigrationApplied_healthy]; exact hm0
    obtain ⟨t, ht⟩ := hsuc m (List.mem_cons_self _ _) st.app
    have hmap : ((m :: rest).map (fun m => m.file)) =
        m.file :: rest.map (fun m => m.file) := rfl
    rw [hmap] at hnodup
    have hnodup' : (rest.map (fun m => m.file)).Nodup := hnodup.of_cons
    have hne : m.file ∉ rest.map (fun m => m.file) := (List.nodup_cons.mp hnodup).1
    have hfresh' : ∀ m' ∈ rest,
        (st.ledger ++ [(⟨m.file, now⟩ : LedgerRow)]).any
          (fun row => row.file == m'.file) = false := by
      intro m' hm'
      have h1 : st.ledger.any (fun row => row.file == m'.file) = false :=
        hfresh m' (List.mem_cons_of_mem _ hm')
      have h2 : m.file ≠ m'.file := by
        intro hcontra
        exact hne (hcontra ▸ List.mem_map_of_mem (fun m => m.file) hm')
      simp [List.any_append, h1, h2]
    obtain ⟨a2, h2⟩ := ih hnodup' (fun m' hm' => hsuc m' (List.mem_cons_of_mem _ hm'))
      ⟨st.ledger ++ [(⟨m.file, now⟩ : LedgerRow)], t⟩ (acc ++ [m.file]) hfresh'
    refine ⟨a2, ?_⟩
    rw [show Runner.upLoop (fun _ => false) now (m :: rest) st acc =
        Runner.upLoop (fun _ => false) now rest
          ⟨st.ledger ++ [(⟨m.file, now⟩ : LedgerRow)], t⟩ (acc ++ [m.file]) by
      simp [Runner.upLoop, hap, ht, saveAppliedMigration_ok now st.ledger m.file hm0]]
    rw [h2]
    simp

/-- Invariant of the up loop: with a healthy store, starting from a ledger
with no duplicate file keys and an accumulator of already-recorded files, a
successful run yields a duplicate-free result list and ledger key column. -/
theorem upLoop_nodup (now : Int) :
    ∀ (ms : List Migration) (st : TxState) (acc : List String)
      (st2 : TxState) (l : List String),
      (st.ledger.map (fun row => row.file)).Nodup → acc.Nodup →
      (∀ f ∈ acc, st.ledger.any (fun row => row.file == f) = true) →
      Runner.upLoop (fun _ => false) now ms st acc = Except.ok (st2, l) →
      l.Nodup ∧ (st2.ledger.map (fun row => row.file)).Nodup := by
  intro ms
  induction ms with
  | nil =>
    intro st acc st2 l h1 h2 _ heq
    rw [Runner.upLoop] at heq
    obtain ⟨hst, hl⟩ := Prod.mk.injEq .. ▸ Except.ok.inj heq
    exact ⟨hl ▸ h2, hst ▸ h1⟩
  | cons m rest ih =>
    intro st acc st2 l h1 h2 h3 heq
    cases hap : Runner.isMigrationApplied (fun _ => false) st.ledger m.file with
    | true =>
      rw [Runner.upLoop, hap, if_pos rfl] at heq
      exact ih st acc st2 l h1 h2 h3 heq
    | false =>
      rw [isMigrationApplied_healthy] at hap
      cases hup : m.up st.app with
      | error e =>
        rw [Runner.upLoop] at heq
        simp [isMigrationApplied_healthy, hap, hup] at heq
      | ok t =>
        rw [Runner.upLoop] at heq
        simp only [isMigrationApplied_healthy, hap, Bool.false_eq_true, if_false, hup,
          saveAppliedMigration_ok now st.ledger m.file hap] at heq
        have hnotmem : m.file ∉ st.ledger.map (fun row => row.file) := by
          intro hmem
          rw [← any_file_eq_mem_map] at hmem
          rw [hap] at hmem
          cases hmem
        have h1' : ((st.ledger ++ [(⟨m.file, now⟩ : LedgerRow)]).map
            (fun row => row.file)).Nodup := by
          simp [List.nodup_append, h1, hnotmem]
        have h2' : (acc ++ [m.file]).Nodup := by
          simp [List.nodup_append, h2]
          intro hmem
          have := h3 m.file hmem
          rw [hap] at this
          cases this
        have h3' : ∀ f ∈ acc ++ [m.file],
            (st.ledger ++ [(⟨m.file, now⟩ : LedgerRow)]).any
              (fun row => row.file == f) = true := by
          intro f hf
          rcases List.mem_append.mp hf with hf | hf
          · simp [List.any_append, h3 f hf]
          · simp at hf
            simp [List.any_append, hf]
        exact ih _ _ st2 l h1' h2' h3' heq

/-- Passing an all-succeeding block of units through the up loop reaches the
rest of the list; any file recorded afterwards was recorded before or belongs
to the block. -/
theorem upLoop_pass (now : Int) :
    ∀ (pre rest : List Migration), UpsSucceed pre →
    ∀ (st : TxState) (acc : List String),
      ∃ st2 acc2,
        Runner.upLoop (fun _ => false) now (pre ++ rest) st acc =
          Runner.upLoop (fun _ => false) now rest st2 acc2 ∧
        ∀ f, st2.ledger.any (fun row => row.file == f) = true →
          st.ledger.any (fun row => row.file == f) = true ∨
            f ∈ pre.map (fun m => m.file) := by
  intro pre
  induction pre with
  | nil => intro rest _ st acc; exact ⟨st, acc, rfl, fun f hf => Or.inl hf⟩
  | cons m pre ih =>
    intro rest hsuc st acc
    have hpre : UpsSucceed pre := fun m' hm' => hsuc m' (List.mem_cons_of_mem _ hm')
    cases hap : Runner.isMigrationApplied (fun _ => false) st.ledger m.file with
    | true =>
      obtain ⟨st2, acc2, heq, hsub⟩ := ih rest hpre st acc
      refine ⟨st2, acc2, ?_, fun f hf => ?_⟩
      · rw [← heq]; simp [Runner.upLoop, hap]
      · rcases hsub f hf with h | h
        · exact Or.inl h
        · exact Or.inr (List.mem_cons_of_mem _ h)
    | false =>
      have hany : st.ledger.any (fun row => row.file == m.file) = false := by
        rw [isMigrationApplied_healthy] at hap
        exact hap
      obtain ⟨t, ht⟩ := hsuc m (List.mem_cons_self _ _) st.app
      obtain ⟨st2, acc2, heq, hsub⟩ := ih rest hpre
        ⟨st.ledger ++ [(⟨m.file, now⟩ : LedgerRow)], t⟩ (acc ++ [m.file])
      refine ⟨st2, acc2, ?_, fun f hf => ?_⟩
      · rw [← heq]
        simp [Runner.upLoop, hap, ht, saveAppliedMigration_ok now st.ledger m.file hany]
      · rcases hsub f hf with h | h
        · rw [List.any_append] at h
          rcases Bool.or_eq_true_iff.mp h with h | h
          · exact Or.inl h
          · simp at h
            exact Or.inr (by simp [h])
        · exact Or.inr (List.mem_cons_of_mem _ h)

/-- With a healthy store, succeeding down operations, duplicate-free file keys
and a positive revert count, the down loop reverts every applied unit of the
iterated list, in iteration order, and deletes exactly their rows: the break
guard `toRevertCount - totalReverted <= 0` never fires because `totalReverted`
stays 0 in the source. -/
theorem downLoop_revertAll (n : Int) (hn : 1 ≤ n) :
    ∀ (ms : List Migration), (ms.map (fun m => m.file)).Nodup → DownsSucceed ms →
    ∀ (st : TxState) (acc : List String),
      ∃ a2, Runner.downLoop (fun _ => false) n 0 ms st acc =
        Except.ok
          (⟨st.ledger.filter (fun row =>
              !(((appliedItems ms st.ledger).map (fun m => m.file)).contains row.file)),
            a2⟩,
            acc ++ (appliedItems ms st.ledger).map (fun m => m.file)) := by
  intro ms
  induction ms with
  | nil =>
    intro _ _ st acc
    exact ⟨st.app, by simp [Runner.downLoop, appliedItems]⟩
  | cons m rest ih =>
    intro hnodup hsuc st acc
    rw [List.map_cons] at hnodup
    have hnodup' : (rest.map (fun m => m.file)).Nodup := hnodup.of_cons
    have hne : m.file ∉ rest.map (fun m => m.file) := (List.nodup_cons.mp hnodup).1
    have hsuc' : DownsSucceed rest := fun m' hm' => hsuc m' (List.mem_cons_of_mem _ hm')
    cases hm : st.ledger.any (fun row => row.file == m.file) with
    | false =>
      have happ : appliedItems (m :: rest) st.ledger = appliedItems rest st.ledger := by
        simp [appliedItems, List.filter_cons, hm]
      obtain ⟨a2, h2⟩ := ih hnodup' hsuc' st acc
      refine ⟨a2, ?_⟩
      rw [happ]
      rw [show Runner.downLoop (fun _ => false) n 0 (m :: rest) st acc
          = Runner.downLoop (fun _ => false) n 0 rest st acc by
        simp [Runner.downLoop, isMigrationApplied_healthy, hm]]
      exact h2
    | true =>
      have hguard : ¬ ((n : Int) ≤ 0) := by omega
      obtain ⟨t, ht⟩ := hsuc m (List.mem_cons_self _ _) st.app
      obtain ⟨a2, h2⟩ := ih hnodup' hsuc'
        ⟨Runner.saveRevertedMigration st.ledger m.file, t⟩ (acc ++ [m.file])
      refine ⟨a2, ?_⟩
      have hstep : Runner.downLoop (fun _ => false) n 0 (m :: rest) st acc =
          Runner.downLoop (fun _ => false) n 0 rest
            ⟨Runner.saveRevertedMigration st.ledger m.file, t⟩ (acc ++ [m.file]) := by
        simp [Runner.downLoop, isMigrationApplied_healthy, hm, hguard, ht]
      have happ' : appliedItems rest (Runner.saveRevertedMigration st.ledger m.file)
          = appliedItems rest st.ledger := by
        apply List.filter_congr
        intro m' hm'
        exact any_file_filter_ne st.ledger m.file m'.file
          (fun hcontra => hne (hcontra ▸ List.mem_map_of_mem _ hm'))
      have happ : appliedItems (m :: rest) st.ledger = m :: appliedItems rest st.ledger := by
        simp [appliedItems, List.filter_cons, hm]
      have hfilter : (Runner.saveRevertedMigration st.ledger m.file).filter
          (fun row =>
            !(((appliedItems rest st.ledger).map (fun m => m.file)).contains row.file))
          = st.ledger.filter (fun row =>
              !(((m :: appliedItems rest st.ledger).map (fun m => m.file)).contains
                  row.file)) := by
        rw [Runner.saveRevertedMigration, List.filter_filter]
        apply List.filter_congr
        intro row _
        simp [List.contains_cons, Bool.and_comm]
        rfl
      rw [hstep, h2, happ', happ, hfilter]
      simp

/-- General run of the up loop on a healthy store with succeeding,
duplicate-free units: it applies exactly the pending units, in forward list
order, appending their rows to the ledger. -/
theorem upLoop_run (now : Int) :
    ∀ (ms : List Migration), (ms.map (fun m => m.file)).Nodup → UpsSucceed ms →
    ∀ (st : TxState) (acc : List String),
      ∃ a2, Runner.upLoop (fun _ => false) now ms st acc =
        Except.ok
          (⟨st.ledger ++ (pendingItems ms st.ledger).map (fun m => ⟨m.file, now⟩), a2⟩,
            acc ++ (pendingItems ms st.ledger).map (fun m => m.file)) := by
  intro ms
  induction ms with
  | nil => intro _ _ st acc; exact ⟨st.app, by simp [Runner.upLoop, pendingItems]⟩
  | cons m rest ih =>
    intro hnodup hsuc st acc
    rw [List.map_cons] at hnodup
    have hnodup' : (rest.map (fun m => m.file)).Nodup := hnodup.of_cons
    have hne : m.file ∉ rest.map (fun m => m.file) := (List.nodup_cons.mp hnodup).1
    have hsuc' : UpsSucceed rest := fun m' hm' => hsuc m' (List.mem_cons_of_mem _ hm')
    cases hm : st.ledger.any (fun row => row.file == m.file) with
    | true =>
      have hpend : pendingItems (m :: rest) st.ledger = pendingItems rest st.ledger := by
        simp [pendingItems, List.filter_cons, hm]
      obtain ⟨a2, h2⟩ := ih hnodup' hsuc' st acc
      refine ⟨a2, ?_⟩
      rw [hpend]
      rw [show Runner.upLoop (fun _ => false) now (m :: rest) st acc
          = Runner.upLoop (fun _ => false) now rest st acc by
        simp [Runner.upLoop, isMigrationApplied_healthy, hm]]
      exact h2
    | false =>
      obtain ⟨t, ht⟩ := hsuc m (List.mem_cons_self _ _) st.app
      obtain ⟨a2, h2⟩ := ih hnodup' hsuc'
        ⟨st.ledger ++ [(⟨m.file, now⟩ : LedgerRow)], t⟩ (acc ++ [m.file])
      refine ⟨a2, ?_⟩
      have hstep : Runner.upLoop (fun _ => false) now (m :: rest) st acc
          = Runner.upLoop (fun _ => false) now rest
              ⟨st.ledger ++ [(⟨m.file, now⟩ : LedgerRow)], t⟩ (acc ++ [m.file]) := by
        simp [Runner.upLoop, isMigrationApplied_healthy, hm, ht,
          saveAppliedMigration_ok now st.ledger m.file hm]
      have hpend' : pendingItems rest (st.ledger ++ [(⟨m.file, now⟩ : LedgerRow)])
          = pendingItems rest st.ledger := by
        apply List.filter_congr
        intro m' hm'
        have hneq : (m.file == m'.file) = false := by
          rw [beq_eq_false_iff_ne]
          intro hcontra
          exact hne (hcontra ▸ List.mem_map_of_mem _ hm')
        simp [List.any_append, hneq]
      have hpend : pendingItems (m :: rest) st.ledger = m :: pendingItems rest st.ledger := by
        simp [pendingItems, List.filter_cons, hm]
      rw [hstep, h2, hpend', hpend]
      simp

/-- Counting ledger rows with a given file key via the key column. -/
theorem length_filter_file (L : Ledger) (f : String) :
    (L.filter (fun row => row.file == f)).length
      = List.count f (L.map (fun row => row.file)) := by
  rw [← List.countP_eq_length_filter, List.count, List.countP_map]
  rfl

/-- C1: with 5 applied units, `Down(2)` is supposed to revert exactly the 2
most recently applied units, stopping once the number of reverted units
reaches the count; the code instead reverts all 5, because `totalReverted`
is never incremented, so the break guard never fires for a positive count. -/
theorem down_ignores_revert_count :
    Runner.Down runner5 (fun _ => false) 2 ⟨ledger5, 0⟩ =
      (Except.ok ["m5", "m4", "m3", "m2", "m1"], ⟨[], 0⟩) := rfl

/-- C2 counterexample: with exactly one applied unit, `Down(-1)` returns an
empty list and leaves the ledger unchanged, instead of reverting the applied
unit, refuting the claim that a negative count reverts all applied units. -/
theorem down_negative_cex :
    Runner.Down runnerA (fun _ => false) (-1) ⟨[⟨"a", 0⟩], 0⟩ =
        (Except.ok [], ⟨[⟨"a", 0⟩], 0⟩) ∧
      Except.ok ([] : List String) ≠ (Except.ok ["a"] : Except RunError (List String)) :=
  ⟨rfl, by simp⟩

/-- C2 (amended): for every `n < 0`, `Down(n)` reverts nothing: it returns an
empty list without error and leaves the database unchanged, because the break
guard `toRevertCount - totalReverted <= 0` holds immediately. -/
theorem down_negative_noop (r : Runner) (readFails : String → Bool) (n : Int)
    (db : TxState) (hn : n < 0) :
    Runner.Down r readFails n db = (Except.ok [], db) := by
  rw [Runner.Down, downLoop_stop readFails n 0 (by omega) _ db []]

theorem down_negative_noop_witness :
    Runner.Down runnerA (fun _ => false) (-1) ⟨[⟨"a", 0⟩], 0⟩ =
      (Except.ok [], ⟨[⟨"a", 0⟩], 0⟩) :=
  down_negative_noop runnerA (fun _ => false) (-1) ⟨[⟨"a", 0⟩], 0⟩ (by decide)

/-- C3: when the first not-yet-applied unit whose up operation fails is
reached, `Up()` returns the error wrapping that unit identifier and the
underlying cause, and the whole batch transaction is rolled back: the
database, and in particular the ledger, is exactly as before the call, so no
earlier unit applied in this invocation is persisted. -/
theorem up_first_failure_aborts
    (pre : List Migration) (b : Migration) (post : List Migration)
    (now : Int) (db : TxState) (e : String)
    (hpre : UpsSucceed pre)
    (hb : ∀ s, b.up s = Except.error e)
    (hfresh : db.ledger.any (fun row => row.file == b.file) = false)
    (hnotpre : b.file ∉ pre.map (fun m => m.file)) :
    Runner.Up ⟨pre ++ b :: post⟩ (fun _ => false) now db =
      (Except.error (RunError.applyFailed b.file e), db) := by
  obtain ⟨st2, acc2, heq, hsub⟩ := upLoop_pass now pre (b :: post) hpre db []
  have hbnot : st2.ledger.any (fun row => row.file == b.file) = false := by
    cases h : st2.ledger.any (fun row => row.file == b.file) with
    | false => rfl
    | true =>
      rcases hsub _ h with h1 | h2
      · rw [hfresh] at h1; cases h1
      · exact absurd h2 hnotpre
  have hfail : Runner.upLoop (fun _ => false) now (b :: post) st2 acc2 =
      Except.error (RunError.applyFailed b.file e) := by
    simp [Runner.upLoop, isMigrationApplied_healthy, hbnot, hb st2.app]
  rw [Runner.Up, heq, hfail]

theorem up_first_failure_aborts_witness :
    Runner.Up ⟨[mkMig "a", failMig, mkMig "c"]⟩ (fun _ => false) 7 ⟨[], 0⟩ =
      (Except.error (RunError.applyFailed "b" "boom"), ⟨[], 0⟩) :=
  up_first_failure_aborts [mkMig "a"] failMig [mkMig "c"] 7 ⟨[], 0⟩ "boom"
    (by
      intro m hm s
      simp at hm
      subst hm
      exact ⟨s, rfl⟩)
    (fun s => rfl) rfl (by decide)

/-- C4 counterexample: for units registered as `[a, b, c]` with none applied,
`Up()` does apply and return them in order `a, b, c`, but the subsequent
`Down(-1)` returns an empty list — not the claimed `[c, b, a]`. -/
theorem up_down_order_cex :
    Runner.Up runner3 (fun _ => false) 7 ⟨[], 0⟩ =
        (Except.ok ["a", "b", "c"], ⟨[⟨"a", 7⟩, ⟨"b", 7⟩, ⟨"c", 7⟩], 0⟩) ∧
      Runner.Down runner3 (fun _ => false) (-1) ⟨[⟨"a", 7⟩, ⟨"b", 7⟩, ⟨"c", 7⟩], 0⟩ =
        (Except.ok [], ⟨[⟨"a", 7⟩, ⟨"b", 7⟩, ⟨"c", 7⟩], 0⟩) ∧
      Except.ok ([] : List String) ≠
        (Except.ok ["c", "b", "a"] : Except RunError (List String)) :=
  ⟨rfl, rfl, by simp⟩

/-- C4 (amended): for units `[a, b, c]` registered in that order with none
applied, `Up()` applies them in forward registration order, returning
`[a, b, c]`; a subsequent `Down(n)` with positive `n` covering the list (for
example `Down(3)`, which is what the interactive layer passes for a negative
input) reverts them in reverse registration order, returning `[c, b, a]`;
`Down(-1)` itself instead reverts nothing (see the counterexample). -/
theorem up_down_order (ma mb mc : Migration) (now : Int) (a0 : Nat)
    (hnodup : ([ma, mb, mc].map (fun m => m.file)).Nodup)
    (hup : UpsSucceed [ma, mb, mc]) (hdown : DownsSucceed [ma, mb, mc]) :
    ∃ a1 a2,
      Runner.Up ⟨[ma, mb, mc]⟩ (fun _ => false) now ⟨[], a0⟩ =
        (Except.ok [ma.file, mb.file, mc.file],
          ⟨[⟨ma.file, now⟩, ⟨mb.file, now⟩, ⟨mc.file, now⟩], a1⟩) ∧
      Runner.Down ⟨[ma, mb, mc]⟩ (fun _ => false) 3
          ⟨[⟨ma.file, now⟩, ⟨mb.file, now⟩, ⟨mc.file, now⟩], a1⟩ =
        (Except.ok [mc.file, mb.file, ma.file], ⟨[], a2⟩) := by
  obtain ⟨a1, h1⟩ := upLoop_fresh now [ma, mb, mc] hnodup hup ⟨[], a0⟩ []
    (by intro m _; rfl)
  have hnodupRev : ([ma, mb, mc].reverse.map (fun m => m.file)).Nodup := by
    rw [List.map_reverse]
    exact List.nodup_reverse.mpr hnodup
  have hdownRev : DownsSucceed [ma, mb, mc].reverse := fun m hm =>
    hdown m (List.mem_reverse.mp hm)
  obtain ⟨a2, h2⟩ := downLoop_revertAll 3 (by omega) [ma, mb, mc].reverse hnodupRev hdownRev
    ⟨[⟨ma.file, now⟩, ⟨mb.file, now⟩, ⟨mc.file, now⟩], a1⟩ []
  refine ⟨a1, a2, ?_, ?_⟩
  · rw [Runner.Up, h1]
    rfl
  · rw [Runner.Down, h2]
    simp [appliedItems, List.filter_cons]

theorem up_down_order_witness :
    ∃ a1 a2,
      Runner.Up ⟨[mkMig "x", mkMig "y", mkMig "z"]⟩ (fun _ => false) 7 ⟨[], 0⟩ =
        (Except.ok ["x", "y", "z"], ⟨[⟨"x", 7⟩, ⟨"y", 7⟩, ⟨"z", 7⟩], a1⟩) ∧
      Runner.Down ⟨[mkMig "x", mkMig "y", mkMig "z"]⟩ (fun _ => false) 3
          ⟨[⟨"x", 7⟩, ⟨"y", 7⟩, ⟨"z", 7⟩], a1⟩ =
        (Except.ok ["z", "y", "x"], ⟨[], a2⟩) :=
  up_down_order (mkMig "x") (mkMig "y") (mkMig "z") 7 0 (by decide)
    (by
      intro m hm s
      simp [mkMig] at hm
      rcases hm with rfl | rfl | rfl <;> exact ⟨s, rfl⟩)
    (by
      intro m hm s
      simp [mkMig] at hm
      rcases hm with rfl | rfl | rfl <;> exact ⟨s, rfl⟩)

/-- C5: Up is idempotent: on a healthy store whose ledger keys are unique
(the PRIMARY KEY invariant), the first `Up()` returns the (non-empty, when
units are pending) list of pending files and appends one ledger row per
pending unit; a second `Up()` with the same list returns an empty list and
changes nothing, and the resulting ledger holds exactly one entry per
registered unit. -/
theorem up_idempotent (r : Runner) (now now2 : Int) (db : TxState)
    (hkeys : (db.ledger.map (fun row => row.file)).Nodup)
    (hnodup : (r.migrationsList.map (fun m => m.file)).Nodup)
    (hup : UpsSucceed r.migrationsList)
    (hpend : pendingItems r.migrationsList db.ledger ≠ []) :
    ∃ a1,
      Runner.Up r (fun _ => false) now db =
        (Except.ok ((pendingItems r.migrationsList db.ledger).map (fun m => m.file)),
          ⟨db.ledger ++
            (pendingItems r.migrationsList db.ledger).map (fun m => ⟨m.file, now⟩), a1⟩) ∧
      (pendingItems r.migrationsList db.ledger).map (fun m => m.file) ≠ [] ∧
      Runner.Up r (fun _ => false) now2
          ⟨db.ledger ++
            (pendingItems r.migrationsList db.ledger).map (fun m => ⟨m.file, now⟩), a1⟩ =
        (Except.ok [],
          ⟨db.ledger ++
            (pendingItems r.migrationsList db.ledger).map (fun m => ⟨m.file, now⟩), a1⟩) ∧
      ∀ m ∈ r.migrationsList,
        ((db.ledger ++
            (pendingItems r.migrationsList db.ledger).map
              (fun m' => (⟨m'.file, now⟩ : LedgerRow))).filter
          (fun row => row.file == m.file)).length = 1 := by
  obtain ⟨a1, h1⟩ := upLoop_run now r.migrationsList hnodup hup db []
  refine ⟨a1, ?_, ?_, ?_, ?_⟩
  · rw [Runner.Up, h1]
    rfl
  · simpa using hpend
  · have hall : ∀ m ∈ r.migrationsList,
        ((db.ledger ++
            (pendingItems r.migrationsList db.ledger).map
              (fun m' => (⟨m'.file, now⟩ : LedgerRow))).any
          (fun row => row.file == m.file)) = true := by
      intro m hm
      rw [List.any_append]
      cases hL : db.ledger.any (fun row => row.file == m.file) with
      | true => rfl
      | false =>
        have hmp : m ∈ pendingItems r.migrationsList db.ledger := by
          rw [pendingItems, List.mem_filter]
          refine ⟨hm, ?_⟩
          rw [hL]
          rfl
        have hrow : ((pendingItems r.migrationsList db.ledger).map
            (fun m' => (⟨m'.file, now⟩ : LedgerRow))).any
              (fun row => row.file == m.file) = true := by
          rw [List.any_eq_true]
          exact ⟨⟨m.file, now⟩, List.mem_map_of_mem _ hmp, by simp⟩
        rw [hrow]
        rfl
    rw [Runner.Up,
      upLoop_skipAll now2 r.migrationsList
        ⟨db.ledger ++
          (pendingItems r.migrationsList db.ledger).map
            (fun m => (⟨m.file, now⟩ : LedgerRow)), a1⟩
        [] hall]
  · intro m hm
    rw [length_filter_file, List.map_append, List.count_append, List.map_map]
    have hpkeys : ((pendingItems r.migrationsList db.ledger).map (fun m => m.file)).Nodup :=
      List.Nodup.sublist (List.Sublist.map _ (List.filter_sublist _)) hnodup
    show List.count m.file (db.ledger.map (fun row => row.file)) +
        List.count m.file ((pendingItems r.migrationsList db.ledger).map (fun m => m.file))
      = 1
    cases hL : db.ledger.any (fun row => row.file == m.file) with
    | true =>
      have h1 : List.count m.file (db.ledger.map (fun row => row.file)) = 1 :=
        List.count_eq_one_of_mem hkeys ((any_file_eq_mem_map _ _).mp hL)
      have h0 : List.count m.file
          ((pendingItems r.migrationsList db.ledger).map (fun m => m.file)) = 0 := by
        rw [List.count_eq_zero]
        intro hmem
        rw [List.mem_map] at hmem
        obtain ⟨m', hm', hfile⟩ := hmem
        rw [pendingItems, List.mem_filter] at hm'
        have h2 := hm'.2
        rw [Bool.not_eq_eq_eq_not, Bool.not_true, hfile] at h2
        rw [hL] at h2
        cases h2
      rw [h1, h0]
    | false =>
      have h0 : List.count m.file (db.ledger.map (fun row => row.file)) = 0 := by
        rw [List.count_eq_zero]
        intro hmem
        rw [← any_file_eq_mem_map, hL] at hmem
        cases hmem
      have h1 : List.count m.file
          ((pendingItems r.migrationsList db.ledger).map (fun m => m.file)) = 1 := by
        have hmp : m ∈ pendingItems r.migrationsList db.ledger := by
          rw [pendingItems, List.mem_filter]
          refine ⟨hm, ?_⟩
          rw [hL]
          rfl
        exact List.count_eq_one_of_mem hpkeys (List.mem_map_of_mem _ hmp)
      rw [h0, h1]

theorem up_idempotent_witness :
    ∃ a1,
      Runner.Up runner3 (fun _ => false) 7 ⟨[], 0⟩ =
        (Except.ok ((pendingItems runner3.migrationsList ([] : Ledger)).map
            (fun m => m.file)),
          ⟨([] : Ledger) ++
            (pendingItems runner3.migrationsList ([] : Ledger)).map
              (fun m => ⟨m.file, 7⟩), a1⟩) ∧
      (pendingItems runner3.migrationsList ([] : Ledger)).map (fun m => m.file) ≠ [] ∧
      Runner.Up runner3 (fun _ => false) 8
          ⟨([] : Ledger) ++
            (pendingItems runner3.migrationsList ([] : Ledger)).map
              (fun m => ⟨m.file, 7⟩), a1⟩ =
        (Except.ok [],
          ⟨([] : Ledger) ++
            (pendingItems runner3.migrationsList ([] : Ledger)).map
              (fun m => ⟨m.file, 7⟩), a1⟩) ∧
      ∀ m ∈ runner3.migrationsList,
        ((([] : Ledger) ++
            (pendingItems runner3.migrationsList ([] : Ledger)).map
              (fun m' => (⟨m'.file, 7⟩ : LedgerRow))).filter
          (fun row => row.file == m.file)).length = 1 :=
  up_idempotent runner3 7 8 ⟨[], 0⟩ (by decide) (by decide)
    (by
      intro m hm s
      simp [runner3, mkMig] at hm
      rcases hm with rfl | rfl | rfl <;> exact ⟨s, rfl⟩)
    (by simp [pendingItems, runner3])

/-- C6: a failing ledger existence query makes `isMigrationApplied` report
"not applied" — the `err == nil && exists` guard drops the query error, which
therefore never reaches the caller of `Up` or `Down`: `Down` (which only
deletes) succeeds under every read-failure oracle given succeeding down
operations, and `Up` succeeds under every oracle whose failures hit only
units with no ledger row, given succeeding up operations and unique ids.
When a read failure does mask an already-applied unit, what `Up` returns is
the wrapped primary-key violation of the re-insert (a ledger-write error
naming the unit) — still not the read error, shown here on a concrete
masked state. -/
theorem read_failure_defaults_not_applied :
    (∀ (readFails : String → Bool) (L : Ledger) (f : String),
        readFails f = true → Runner.isMigrationApplied readFails L f = false) ∧
    (∀ (r : Runner) (readFails : String → Bool) (now : Int) (db : TxState),
        UpsSucceed r.migrationsList →
        (r.migrationsList.map (fun m => m.file)).Nodup →
        (∀ m ∈ r.migrationsList, readFails m.file = true →
          db.ledger.any (fun row => row.file == m.file) = false) →
        ∃ l db2, Runner.Up r readFails now db = (Except.ok l, db2)) ∧
    (∀ (r : Runner) (readFails : String → Bool) (n : Int) (db : TxState),
        DownsSucceed r.migrationsList →
        ∃ l db2, Runner.Down r readFails n db = (Except.ok l, db2)) ∧
    (Runner.Up runnerA (fun _ => true) 7 ⟨[⟨"a", 0⟩], 0⟩ =
      (Except.error
          (RunError.saveApplyFailed "a" "UNIQUE constraint failed: _migrations.file"),
        ⟨[⟨"a", 0⟩], 0⟩)) := by
  refine ⟨isMigrationApplied_of_readFails, ?_, ?_, rfl⟩
  · intro r readFails now db hup hnodup hmask
    obtain ⟨st2, l, h⟩ := upLoop_ok readFails now r.migrationsList hup hnodup db [] hmask
    exact ⟨l, st2, by rw [Runner.Up, h]⟩
  · intro r readFails n db hdown
    have hrev : DownsSucceed r.migrationsList.reverse := fun m hm =>
      hdown m (List.mem_reverse.mp hm)
    obtain ⟨st2, l, h⟩ := downLoop_ok readFails n 0 r.migrationsList.reverse hrev db []
    exact ⟨l, st2, by rw [Runner.Down, h]⟩

theorem read_failure_defaults_witness :
    ∃ l db2,
      Runner.Up runnerA (fun _ => true) 7 ⟨[], 0⟩ = (Except.ok l, db2) :=
  read_failure_defaults_not_applied.2.1 runnerA (fun _ => true) 7 ⟨[], 0⟩
    (by
      intro m hm s
      simp [runnerA, mkMig] at hm
      subst hm
      exact ⟨s, rfl⟩)
    (by decide)
    (by intro m hm h; rfl)

/-- C7: `Down(0)` reverts nothing and returns an empty list without error in
every state; and for `n` larger than the number of applied units (with a
healthy store and succeeding down operations), `Down(n)` reverts all applied
units without error: it returns their files in reverse registration order and
deletes exactly their ledger rows. -/
theorem down_zero_and_overshoot :
    (∀ (r : Runner) (readFails : String → Bool) (db : TxState),
        Runner.Down r readFails 0 db = (Except.ok [], db)) ∧
    (∀ (r : Runner) (n : Int) (db : TxState),
        (r.migrationsList.map (fun m => m.file)).Nodup →
        DownsSucceed r.migrationsList →
        ((appliedItems r.migrationsList db.ledger).length : Int) < n →
        ∃ a2, Runner.Down r (fun _ => false) n db =
          (Except.ok
              ((appliedItems r.migrationsList db.ledger).reverse.map (fun m => m.file)),
            ⟨db.ledger.filter (fun row =>
              !(((appliedItems r.migrationsList db.ledger).map (fun m => m.file)).contains
                  row.file)), a2⟩)) := by
  constructor
  · intro r readFails db
    rw [Runner.Down, downLoop_stop readFails 0 0 (by omega) _ db []]
  · intro r n db hnodup hdown hcount
    have hn : (1 : Int) ≤ n := by omega
    have hnodupRev : (r.migrationsList.reverse.map (fun m => m.file)).Nodup := by
      rw [List.map_reverse]
      exact List.nodup_reverse.mpr hnodup
    have hdownRev : DownsSucceed r.migrationsList.reverse := fun m hm =>
      hdown m (List.mem_reverse.mp hm)
    obtain ⟨a2, h⟩ := downLoop_revertAll n hn r.migrationsList.reverse hnodupRev hdownRev db []
    have happrev : appliedItems r.migrationsList.reverse db.ledger
        = (appliedItems r.migrationsList db.ledger).reverse := by
      rw [appliedItems, appliedItems, List.filter_reverse]
    rw [happrev] at h
    have hfix : db.ledger.filter (fun row =>
        !((((appliedItems r.migrationsList db.ledger).reverse.map (fun m => m.file))).contains
            row.file))
        = db.ledger.filter (fun row =>
          !(((appliedItems r.migrationsList db.ledger).map (fun m => m.file)).contains
              row.file)) := by
      apply List.filter_congr
      intro row _
      rw [List.map_reverse, contains_reverse]
    rw [hfix] at h
    refine ⟨a2, ?_⟩
    rw [Runner.Down, h]
    rfl

theorem down_zero_overshoot_witness :
    ∃ a2, Runner.Down runner5 (fun _ => false) 6 ⟨ledger5, 0⟩ =
      (Except.ok
          ((appliedItems runner5.migrationsList ledger5).reverse.map (fun m => m.file)),
        ⟨ledger5.filter (fun row =>
          !(((appliedItems runner5.migrationsList ledger5).map (fun m => m.file)).contains
              row.file)), a2⟩) :=
  down_zero_and_overshoot.2 runner5 6 ⟨ledger5, 0⟩ (by decide)
    (by
      intro m hm s
      simp [runner5, mkMig] at hm
      rcases hm with rfl | rfl | rfl | rfl | rfl <;> exact ⟨s, rfl⟩)
    (by decide)

/-- C8: Runner construction runs the ledger-table bootstrap before returning
and fails fast when the DDL fails (no Runner is produced); since the DDL is
CREATE TABLE IF NOT EXISTS, a successful construction leaves the table in
place and constructing another Runner against the same store succeeds, never
erroring due to the table already existing. -/
theorem bootstrap_fail_fast_and_idempotent :
    (∀ (tables : List String) (ml : List Migration),
        NewRunner true tables ml = Except.error "StoreError") ∧
    (∀ (tables : List String) (ml ml2 : List Migration),
        ∃ tables2,
          NewRunner false tables ml = Except.ok ({ migrationsList := ml }, tables2) ∧
          tables2.contains migrationsTable = true ∧
          NewRunner false tables2 ml2 = Except.ok ({ migrationsList := ml2 }, tables2)) := by
  constructor
  · intro tables ml
    rfl
  · intro tables ml ml2
    by_cases h : migrationsTable ∈ tables
    · refine ⟨tables, ?_⟩
      simp [NewRunner, Runner.createMigrationsTable, h]
    · refine ⟨tables ++ [migrationsTable], ?_⟩
      simp [NewRunner, Runner.createMigrationsTable, h]

/-- C9: in the interactive `Run` layer, no arguments at all default to the
`up` command; `down` with no count argument uses a revert count of 1; and a
second argument parsing to a negative integer is replaced by the length of
the migrations list (the definition uses only the registered list, not the
number of applied units) before `Down` is called. -/
theorem run_arg_processing :
    (Runner.runCmd [] = "up") ∧
    (∀ (r : Runner) (castToInt : String → Int),
        Runner.runDownToRevertCount r castToInt ["down"] = 1) ∧
    (∀ (r : Runner) (castToInt : String → Int) (a0 s : String) (rest : List String),
        castToInt s < 0 →
        Runner.runDownToRevertCount r castToInt (a0 :: s :: rest) =
          (r.migrationsList.length : Int)) := by
  refine ⟨rfl, fun r c => rfl, ?_⟩
  intro r castToInt a0 s rest h
  simp [Runner.runDownToRevertCount, h]

theorem run_arg_processing_witness :
    Runner.runDownToRevertCount runner3 (fun _ => -5) ["down", "2"] =
      (runner3.migrationsList.length : Int) :=
  run_arg_processing.2.2 runner3 (fun _ => -5) "down" "2" [] (by decide)

/-- C10: within a single `Up()` call on a healthy store, the applied check
reads the same transaction state and therefore sees the rows inserted earlier
in the call, so a list entry whose identifier was already recorded is
skipped: starting from a ledger with no duplicate file keys, a successful
`Up()` returns a list without duplicate identifiers and leaves a ledger whose
key column is still duplicate-free, even when the migrations list itself
contains duplicate identifiers. -/
theorem up_no_duplicate_entries (r : Runner) (now : Int) (db : TxState)
    (hnodup : (db.ledger.map (fun row => row.file)).Nodup) :
    ∀ (l : List String) (db2 : TxState),
      Runner.Up r (fun _ => false) now db = (Except.ok l, db2) →
      l.Nodup ∧ (db2.ledger.map (fun row => row.file)).Nodup := by
  intro l db2 heq
  rw [Runner.Up] at heq
  cases hloop : Runner.upLoop (fun _ => false) now r.migrationsList db [] with
  | error e =>
    rw [hloop] at heq
    simp at heq
  | ok p =>
    obtain ⟨st, acc⟩ := p
    rw [hloop] at heq
    simp at heq
    obtain ⟨hl, hst⟩ := heq
    have := upLoop_nodup now r.migrationsList db [] st acc hnodup List.nodup_nil
      (by intro f hf; cases hf) hloop
    rw [hl] at this
    rw [hst] at this
    exact this

theorem up_no_duplicate_entries_witness :
    (["a"] : List String).Nodup ∧
      (([⟨"a", 7⟩] : Ledger).map (fun row => row.file)).Nodup :=
  up_no_duplicate_entries runnerDup 7 ⟨[], 0⟩ (by decide) ["a"] ⟨[⟨"a", 7⟩], 0⟩ rfl

end Migrate
